import Mathlib

/-!
Verification of the message pipeline of git_diff.py (LizardLiang/git-diff).

The embedding works over Python strings modelled as lists of characters.
Each definition mirrors one function (or one self-contained expression) of
the source file; theorems settle the specification claims about them.
-/

/-- Whitespace in the sense of Python str.strip on the ASCII range:
space, tab, newline, carriage return, vertical tab, form feed. -/
def pyIsSpace (c : Char) : Bool :=
  c = ' ' || c = '\t' || c = '\n' || c = '\r' || c = Char.ofNat 11 || c = Char.ofNat 12

/-- Python str.strip: remove leading and trailing whitespace. -/
def pyStrip (s : List Char) : List Char :=
  ((s.dropWhile pyIsSpace).reverse.dropWhile pyIsSpace).reverse

/-- Python str.lower (ASCII case folding, which is all the source needs). -/
def pyLower (s : List Char) : List Char :=
  s.map Char.toLower

/-- Python substring containment (the in operator on strings): the needle
occurs contiguously somewhere in the haystack. -/
def pyContains : List Char → List Char → Bool
  | needle, [] => needle.isPrefixOf []
  | needle, c :: rest => needle.isPrefixOf (c :: rest) || pyContains needle rest

/-- Python str.split on a single newline separator: always returns at least
one segment, and empty segments are kept. -/
def splitNL : List Char → List (List Char)
  | [] => [[]]
  | c :: rest =>
    if c = '\n' then [] :: splitNL rest
    else
      match splitNL rest with
      | [] => [[c]]
      | l :: ls => (c :: l) :: ls

/-- Python newline-join of a list of lines, as in the final
join of format_commit_message. -/
def joinNL : List (List Char) → List Char
  | [] => []
  | [l] => l
  | l :: l' :: ls => l ++ '\n' :: joinNL (l' :: ls)

/-- The recognized category-tag markers of format_commit_message
(git_diff.py lines 285-296), in source order. -/
def tagList : List (List Char) :=
  ["feat:".data, "fix:".data, "docs:".data, "style:".data, "refactor:".data,
   "perf:".data, "test:".data, "build:".data, "ci:".data, "chore:".data]

/-- The tag-inference cascade of format_commit_message (git_diff.py
lines 298-317): scan every line for keyword evidence in the fixed order
fix, feat, docs, refactor, defaulting to chore. -/
def inferredTag (lines : List (List Char)) : List Char :=
  if lines.any (fun line =>
      pyContains "修复".data line || pyContains "修正".data line ||
      pyContains "fix".data (pyLower line)) then
    "fix".data
  else if lines.any (fun line =>
      pyContains "新增".data line || pyContains "添加".data line ||
      pyContains "feat".data (pyLower line) || pyContains "add".data (pyLower line)) then
    "feat".data
  else if lines.any (fun line =>
      pyContains "文档".data line || pyContains "doc".data (pyLower line)) then
    "docs".data
  else if lines.any (fun line =>
      pyContains "重构".data line || pyContains "refactor".data (pyLower line)) then
    "refactor".data
  else
    "chore".data

/-- The headline computation of format_commit_message: keep line 0 when it
already starts with a recognized tag, otherwise prepend the inferred tag. -/
def headlineOf (lines : List (List Char)) : List Char :=
  let first_line := lines.headD []
  if tagList.any (fun p => p.isPrefixOf first_line) then first_line
  else inferredTag lines ++ ": ".data ++ first_line

/-- One iteration of the detail loop of format_commit_message (git_diff.py
lines 328-336): blank lines are dropped, lines whose stripped form starts
with a dash or asterisk are kept verbatim, all others are rewritten as a
dash bullet of their stripped form. -/
def bulletOf (line : List Char) : Option (List Char) :=
  if pyStrip line = [] then none
  else if !("-".data.isPrefixOf (pyStrip line)) && !("*".data.isPrefixOf (pyStrip line)) then
    some ("- ".data ++ pyStrip line)
  else
    some line

/-- The reassembly of format_commit_message after the split: headline, an
optional blank line (inserted only when the second source line is
non-blank), then the bulleted details. -/
def formatLines (lines : List (List Char)) : List (List Char) :=
  let first_line := headlineOf lines
  if 1 < lines.length then
    (if pyStrip (lines.getD 1 []) ≠ [] then [first_line, []] else [first_line])
      ++ (lines.drop 1).filterMap bulletOf
  else
    [first_line]

/-- format_commit_message (git_diff.py lines 276-338): strip the input,
split it into lines, fall back when the line list is empty, otherwise
normalize headline and details and join with newlines. -/
def format_commit_message (commit_message : List Char) : List Char :=
  let lines := splitNL (pyStrip commit_message)
  if lines = [] then "chore: 自动生成的提交消息".data
  else joinNL (formatLines lines)

/-- The added/modified/deleted classification produced by get_file_changes. -/
structure FileChanges where
  new_files : List (List Char)
  modified_files : List (List Char)
  deleted_files : List (List Char)
deriving DecidableEq

/-- get_file_changes (git_diff.py lines 62-91), applied to the short-status
lines: the if/elif chain over each line, keeping everything after the
two-character code and the following space. -/
def get_file_changes (staged_only : Bool) : List (List Char) → FileChanges
  | [] => { new_files := [], modified_files := [], deleted_files := [] }
  | line :: rest =>
    let acc := get_file_changes staged_only rest
    if (staged_only && "A ".data.isPrefixOf line)
        || (!staged_only && ("?? ".data.isPrefixOf line || "A ".data.isPrefixOf line)) then
      { acc with new_files := line.drop 3 :: acc.new_files }
    else if "M ".data.isPrefixOf line then
      { acc with modified_files := line.drop 3 :: acc.modified_files }
    else if "D ".data.isPrefixOf line then
      { acc with deleted_files := line.drop 3 :: acc.deleted_files }
    else
      acc

/-- The two remote text-generation providers of the Summary Requester. -/
inductive ApiProvider where
  | open_ai
  | claude_ai
deriving DecidableEq

/-- The provider dispatch of summarize_changes_with_api (git_diff.py
lines 262-273): which request function runs for a configured model string,
none meaning no summary is produced. -/
def summarize_changes_with_api (model : List Char) : Option ApiProvider :=
  if model = "OPEN_AI".data ∨ "gpt".data.isPrefixOf model = true then
    some ApiProvider.open_ai
  else if model = "CLAUDE".data ∨ "claude".data.isPrefixOf model = true then
    some ApiProvider.claude_ai
  else
    none

/-- The dispatch rule exactly as claim C7 words it: provider A for the
default model string or a gpt-led one, provider B only for a claude-led
one, no summary for anything else. -/
def claimed_dispatch (model : List Char) : Option ApiProvider :=
  if model = "OPEN_AI".data ∨ "gpt".data.isPrefixOf model = true then
    some ApiProvider.open_ai
  else if "claude".data.isPrefixOf model = true then
    some ApiProvider.claude_ai
  else
    none

/-- The diff-truncation bound in the prompt of request_open_ai
(git_diff.py line 105). -/
def open_ai_diff_limit : Nat := 20000

/-- The diff-truncation bound in the prompt of request_claude_ai
(git_diff.py line 185). -/
def claude_ai_diff_limit : Nat := 20000

/-- The diff text request_open_ai embeds in its prompt. -/
def open_ai_prompt_diff (diff_content : List Char) : List Char :=
  diff_content.take open_ai_diff_limit

/-- The diff text request_claude_ai embeds in its prompt. -/
def claude_ai_prompt_diff (diff_content : List Char) : List Char :=
  diff_content.take claude_ai_diff_limit

/-- The model field of the outbound request of request_open_ai
(git_diff.py line 149). -/
def open_ai_request_model (model : List Char) : List Char :=
  if "gpt".data.isPrefixOf model then model else "gpt-4o".data

/-- The model field of the outbound request of request_claude_ai
(git_diff.py lines 233-237). -/
def claude_ai_request_model (model : List Char) : List Char :=
  if "claude".data.isPrefixOf model then model else "claude-3-7-sonnet-20250219".data

/-- The outcome of the git commit invocation inside commit_changes: success
with captured stdout, a CalledProcessError with captured stderr, or any
other exception (temp_written records whether the transient message file
had been created before the exception was raised). -/
inductive GitCommitOutcome where
  | success (stdout : List Char)
  | called_process_error (stderr : List Char)
  | unexpected (temp_written : Bool) (message : List Char)
deriving DecidableEq

/-- The observable result of commit_changes: the returned pair plus whether
the transient message file still exists after the call. -/
structure CommitRun where
  ok : Bool
  output : List Char
  temp_file_exists : Bool
deriving DecidableEq

/-- The cleanup step of the except branches of commit_changes: remove the
transient file when it exists. -/
def cleanup_temp (temp_exists : Bool) : Bool :=
  if temp_exists then false else temp_exists

/-- commit_changes (git_diff.py lines 351-392) with the git invocation and
the file system made explicit: the message file is written, the commit
runs, and every branch removes the file before returning its pair. -/
def commit_changes (commit_message : List Char) (outcome : GitCommitOutcome) : CommitRun :=
  let temp_written := true
  match outcome with
  | GitCommitOutcome.success stdout =>
    { ok := true, output := stdout, temp_file_exists := false }
  | GitCommitOutcome.called_process_error stderr =>
    { ok := false, output := stderr, temp_file_exists := cleanup_temp temp_written }
  | GitCommitOutcome.unexpected written message =>
    { ok := false, output := message, temp_file_exists := cleanup_temp written }

/-! Helper lemmas about the split, join and strip primitives. -/

theorem splitNL_ne_nil (s : List Char) : splitNL s ≠ [] := by
  induction s with
  | nil => simp [splitNL]
  | cons c rest ih =>
    simp only [splitNL]
    split
    · simp
    · split
      · simp
      · simp

theorem splitNL_no_newline {s l : List Char} (h : l ∈ splitNL s) : '\n' ∉ l := by
  induction s generalizing l with
  | nil =>
    simp only [splitNL, List.mem_singleton] at h
    subst h
    simp
  | cons c rest ih =>
    simp only [splitNL] at h
    by_cases hc : c = '\n'
    · rw [if_pos hc] at h
      rcases List.mem_cons.mp h with h | h
      · subst h
        simp
      · exact ih h
    · rw [if_neg hc] at h
      cases hS : splitNL rest with
      | nil => exact absurd hS (splitNL_ne_nil rest)
      | cons l0 ls =>
        rw [hS] at h
        rcases List.mem_cons.mp h with h | h
        · subst h
          intro hmem
          rcases List.mem_cons.mp hmem with h' | h'
          · exact hc h'.symm
          · exact ih (by rw [hS]; exact List.mem_cons_self _ _) h'
        · exact ih (by rw [hS]; exact List.mem_cons_of_mem _ h)

theorem splitNL_single {l : List Char} (h : '\n' ∉ l) : splitNL l = [l] := by
  induction l with
  | nil => rfl
  | cons c rest ih =>
    have hc : ¬ c = '\n' := fun hcc => h (by rw [hcc]; exact List.mem_cons_self _ _)
    have hr : '\n' ∉ rest := fun hm => h (List.mem_cons_of_mem _ hm)
    simp only [splitNL]
    rw [if_neg hc, ih hr]

theorem splitNL_append {l t : List Char} (h : '\n' ∉ l) :
    splitNL (l ++ '\n' :: t) = l :: splitNL t := by
  induction l with
  | nil => simp [splitNL]
  | cons c rest ih =>
    have hc : ¬ c = '\n' := fun hcc => h (by rw [hcc]; exact List.mem_cons_self _ _)
    have hr : '\n' ∉ rest := fun hm => h (List.mem_cons_of_mem _ hm)
    have hstep : (c :: rest) ++ '\n' :: t = c :: (rest ++ '\n' :: t) := rfl
    rw [hstep]
    simp only [splitNL]
    rw [if_neg hc, ih hr]

theorem splitNL_joinNL {F : List (List Char)} (hne : F ≠ [])
    (h : ∀ l ∈ F, '\n' ∉ l) : splitNL (joinNL F) = F := by
  induction F with
  | nil => exact absurd rfl hne
  | cons l F' ih =>
    cases F' with
    | nil =>
      simp only [joinNL]
      exact splitNL_single (h l (List.mem_cons_self _ _))
    | cons l' F'' =>
      simp only [joinNL]
      rw [splitNL_append (h l (List.mem_cons_self _ _))]
      rw [ih (by simp) (fun x hx => h x (List.mem_cons_of_mem _ hx))]

theorem joinNL_cons_ne_nil {d : List Char} {D : List (List Char)} (hd : d ≠ []) :
    joinNL (d :: D) ≠ [] := by
  cases D with
  | nil => simpa [joinNL] using hd
  | cons d' D' =>
    simp only [joinNL]
    intro hcontra
    exact hd (List.append_eq_nil.mp hcontra).1

theorem joinNL_cons_head? {x : List Char} {xs : List (List Char)} (hx : x ≠ []) :
    (joinNL (x :: xs)).head? = x.head? := by
  cases xs with
  | nil => rfl
  | cons y ys =>
    simp only [joinNL]
    rw [List.head?_append]
    cases hX : x with
    | nil => exact absurd hX hx
    | cons a t => simp

theorem joinNL_cons_getLast? {x : List Char} {xs : List (List Char)}
    (hxs : joinNL xs ≠ []) :
    (joinNL (x :: xs)).getLast? = (joinNL xs).getLast? := by
  cases xs with
  | nil => exact absurd rfl hxs
  | cons y ys =>
    simp only [joinNL]
    rw [List.getLast?_append]
    cases hJ : joinNL (y :: ys) with
    | nil => exact absurd hJ hxs
    | cons b t =>
      rw [List.getLast?_cons_cons]
      have hs : (b :: t).getLast?.isSome := List.getLast?_isSome.mpr (by simp)
      obtain ⟨v, hv⟩ := Option.isSome_iff_exists.mp hs
      rw [hv]
      rfl

theorem dropWhile_eq_cons_head_false {p : Char → Bool} {l : List Char} {a : Char}
    {t : List Char} (h : l.dropWhile p = a :: t) : p a = false := by
  have hmatch := List.head?_dropWhile_not p l
  rw [h] at hmatch
  simpa using hmatch

theorem dropWhile_getLast? {p : Char → Bool} {l : List Char}
    (h : l.dropWhile p ≠ []) : (l.dropWhile p).getLast? = l.getLast? := by
  induction l with
  | nil => simp at h
  | cons a t ih =>
    by_cases hpa : p a
    · rw [List.dropWhile_cons_of_pos hpa] at h ⊢
      cases t with
      | nil => simp at h
      | cons b u => rw [ih h, List.getLast?_cons_cons]
    · rw [List.dropWhile_cons_of_neg hpa]

theorem pyStrip_eq_self_of_edges {l : List Char}
    (h1 : ∀ c, l.head? = some c → pyIsSpace c = false)
    (h2 : ∀ c, l.getLast? = some c → pyIsSpace c = false) :
    pyStrip l = l := by
  cases l with
  | nil => rfl
  | cons a t =>
    have ha : pyIsSpace a = false := h1 a rfl
    have hrev : (a :: t).reverse.head? = (a :: t).getLast? := List.head?_reverse _
    unfold pyStrip
    rw [List.dropWhile_cons_of_neg (by simp [ha])]
    cases hR : (a :: t).reverse with
    | nil => exact absurd (congrArg List.length hR) (by simp)
    | cons b r =>
      have hb : (a :: t).getLast? = some b := by
        rw [← hrev, hR]
        rfl
      rw [List.dropWhile_cons_of_neg (by simp [h2 b hb]), ← hR, List.reverse_reverse]

theorem pyStrip_length_le (l : List Char) :
    (pyStrip l).length ≤ (l.dropWhile pyIsSpace).length := by
  unfold pyStrip
  rw [List.length_reverse]
  calc ((l.dropWhile pyIsSpace).reverse.dropWhile pyIsSpace).length
      ≤ (l.dropWhile pyIsSpace).reverse.length := (List.dropWhile_sublist _).length_le
    _ = (l.dropWhile pyIsSpace).length := List.length_reverse _

theorem pyStrip_ne_of_head_ws {l : List Char} {c : Char}
    (h : l.head? = some c) (hc : pyIsSpace c = true) : pyStrip l ≠ l := by
  cases l with
  | nil => simp at h
  | cons a t =>
    have hac : a = c := by simpa using h
    subst hac
    intro he
    have h1 : (pyStrip (a :: t)).length ≤ (t.dropWhile pyIsSpace).length := by
      have hx := pyStrip_length_le (a :: t)
      rwa [List.dropWhile_cons_of_pos hc] at hx
    have h2 : (t.dropWhile pyIsSpace).length ≤ t.length := (List.dropWhile_sublist _).length_le
    have h3 : (pyStrip (a :: t)).length = t.length + 1 := by
      rw [he]
      simp
    omega

theorem pyStrip_ne_of_getLast_ws {l : List Char} {c : Char}
    (h : l.getLast? = some c) (hc : pyIsSpace c = true) : pyStrip l ≠ l := by
  have hlne : l ≠ [] := by
    intro hl
    rw [hl] at h
    simp at h
  intro he
  by_cases hu : l.dropWhile pyIsSpace = []
  · have hnil : pyStrip l = [] := by
      unfold pyStrip
      rw [hu]
      rfl
    exact hlne (he.symm.trans hnil)
  · have hgl : (l.dropWhile pyIsSpace).getLast? = some c := by
      rw [dropWhile_getLast? hu, h]
    have hhead : (l.dropWhile pyIsSpace).reverse.head? = some c := by
      rw [List.head?_reverse, hgl]
    cases hR : (l.dropWhile pyIsSpace).reverse with
    | nil =>
      rw [hR] at hhead
      simp at hhead
    | cons b r =>
      have hbc : b = c := by
        rw [hR] at hhead
        simpa using hhead
      subst hbc
      have hlen1 : (pyStrip l).length ≤ r.length := by
        unfold pyStrip
        rw [List.length_reverse, hR, List.dropWhile_cons_of_pos hc]
        exact (List.dropWhile_sublist _).length_le
      have hlen2 : r.length + 1 = (l.dropWhile pyIsSpace).length := by
        have hx := congrArg List.length hR
        simpa using hx.symm
      have hlen3 : (l.dropWhile pyIsSpace).length ≤ l.length :=
        (List.dropWhile_sublist _).length_le
      have hlen4 : (pyStrip l).length = l.length := congrArg List.length he
      omega

theorem pyStrip_head_not_ws {l : List Char} {c : Char}
    (h : (pyStrip l).head? = some c) : pyIsSpace c = false := by
  unfold pyStrip at h
  rw [List.head?_reverse] at h
  by_cases hv : (l.dropWhile pyIsSpace).reverse.dropWhile pyIsSpace = []
  · rw [hv] at h
    simp at h
  · rw [dropWhile_getLast? hv, List.getLast?_reverse] at h
    cases hU : l.dropWhile pyIsSpace with
    | nil =>
      rw [hU] at h
      simp at h
    | cons b r =>
      rw [hU] at h
      have hb : pyIsSpace b = false := dropWhile_eq_cons_head_false hU
      have hbc : b = c := by simpa using h
      rwa [← hbc]

theorem pyStrip_getLast_not_ws {l : List Char} {c : Char}
    (h : (pyStrip l).getLast? = some c) : pyIsSpace c = false := by
  unfold pyStrip at h
  rw [List.getLast?_reverse] at h
  cases hV : (l.dropWhile pyIsSpace).reverse.dropWhile pyIsSpace with
  | nil =>
    rw [hV] at h
    simp at h
  | cons b r =>
    rw [hV] at h
    have hb : pyIsSpace b = false := dropWhile_eq_cons_head_false hV
    have hbc : b = c := by simpa using h
    rwa [← hbc]

theorem edges_not_ws_of_pyStrip_eq {l : List Char} (h : pyStrip l = l) :
    (∀ c, l.head? = some c → pyIsSpace c = false) ∧
    (∀ c, l.getLast? = some c → pyIsSpace c = false) := by
  constructor
  · intro c hc
    cases hB : pyIsSpace c with
    | false => rfl
    | true => exact absurd h (pyStrip_ne_of_head_ws hc hB)
  · intro c hc
    cases hB : pyIsSpace c with
    | false => rfl
    | true => exact absurd h (pyStrip_ne_of_getLast_ws hc hB)

theorem mem_pyStrip {c : Char} {l : List Char} (h : c ∈ pyStrip l) : c ∈ l := by
  unfold pyStrip at h
  rw [List.mem_reverse] at h
  have h2 := (List.dropWhile_sublist _).subset h
  rw [List.mem_reverse] at h2
  exact (List.dropWhile_sublist _).subset h2

/-! Helper lemmas about the normalizer building blocks. -/

theorem eq_append_of_isPrefixOf {p l : List Char} (h : p.isPrefixOf l = true) :
    ∃ t, l = p ++ t := by
  induction p generalizing l with
  | nil => exact ⟨l, rfl⟩
  | cons a p' ih =>
    cases l with
    | nil => simp [List.isPrefixOf] at h
    | cons b l' =>
      rw [List.isPrefixOf_cons₂, Bool.and_eq_true] at h
      obtain ⟨hab, hp⟩ := h
      have hab' : a = b := by simpa using hab
      subst hab'
      obtain ⟨t, ht⟩ := ih hp
      subst ht
      exact ⟨t, rfl⟩

theorem isPrefixOf_append_self (p t : List Char) : p.isPrefixOf (p ++ t) = true := by
  induction p with
  | nil => simp
  | cons a p' ih =>
    rw [List.cons_append, List.isPrefixOf_cons₂, Bool.and_eq_true]
    exact ⟨by simp, ih⟩

theorem inferredTag_mem (lines : List (List Char)) :
    inferredTag lines = "fix".data ∨ inferredTag lines = "feat".data ∨
    inferredTag lines = "docs".data ∨ inferredTag lines = "refactor".data ∨
    inferredTag lines = "chore".data := by
  unfold inferredTag
  split
  · exact Or.inl rfl
  · split
    · exact Or.inr (Or.inl rfl)
    · split
      · exact Or.inr (Or.inr (Or.inl rfl))
      · split
        · exact Or.inr (Or.inr (Or.inr (Or.inl rfl)))
        · exact Or.inr (Or.inr (Or.inr (Or.inr rfl)))

theorem inferredTag_no_newline (lines : List (List Char)) : '\n' ∉ inferredTag lines := by
  rcases inferredTag_mem lines with h | h | h | h | h <;> rw [h] <;> decide

theorem headlineOf_hasTag (lines : List (List Char)) :
    tagList.any (fun p => p.isPrefixOf (headlineOf lines)) = true := by
  simp only [headlineOf]
  split
  · assumption
  · rcases inferredTag_mem lines with h | h | h | h | h <;> rw [h] <;>
      refine List.any_eq_true.mpr ?_
    · exact ⟨"fix:".data, by simp [tagList],
        by rw [show "fix".data ++ ": ".data ++ lines.headD [] =
            "fix:".data ++ (' ' :: lines.headD []) from rfl]; exact isPrefixOf_append_self _ _⟩
    · exact ⟨"feat:".data, by simp [tagList],
        by rw [show "feat".data ++ ": ".data ++ lines.headD [] =
            "feat:".data ++ (' ' :: lines.headD []) from rfl]; exact isPrefixOf_append_self _ _⟩
    · exact ⟨"docs:".data, by simp [tagList],
        by rw [show "docs".data ++ ": ".data ++ lines.headD [] =
            "docs:".data ++ (' ' :: lines.headD []) from rfl]; exact isPrefixOf_append_self _ _⟩
    · exact ⟨"refactor:".data, by simp [tagList],
        by rw [show "refactor".data ++ ": ".data ++ lines.headD [] =
            "refactor:".data ++ (' ' :: lines.headD []) from rfl]; exact isPrefixOf_append_self _ _⟩
    · exact ⟨"chore:".data, by simp [tagList],
        by rw [show "chore".data ++ ": ".data ++ lines.headD [] =
            "chore:".data ++ (' ' :: lines.headD []) from rfl]; exact isPrefixOf_append_self _ _⟩

theorem hasTag_head {hd : List Char}
    (ht : tagList.any (fun p => p.isPrefixOf hd) = true) :
    ∃ c t, hd = c :: t ∧ pyIsSpace c = false := by
  rcases List.any_eq_true.mp ht with ⟨p, hmem, hp⟩
  simp only [tagList, List.mem_cons, List.not_mem_nil, or_false] at hmem
  rcases hmem with rfl | rfl | rfl | rfl | rfl | rfl | rfl | rfl | rfl | rfl <;>
  · obtain ⟨t, htt⟩ := eq_append_of_isPrefixOf hp
    rw [htt]
    exact ⟨_, _, rfl, by decide⟩

theorem headlineOf_cons_tag {hd : List Char} {rest : List (List Char)}
    (hhd : tagList.any (fun p => p.isPrefixOf hd) = true) :
    headlineOf (hd :: rest) = hd := by
  simp only [headlineOf, List.headD_cons]
  rw [if_pos hhd]

theorem headlineOf_no_newline {lines : List (List Char)}
    (h : ∀ l ∈ lines, '\n' ∉ l) : '\n' ∉ headlineOf lines := by
  have hfirst : '\n' ∉ lines.headD [] := by
    cases lines with
    | nil => simp
    | cons a t => exact h a (List.mem_cons_self _ _)
  simp only [headlineOf]
  split
  · exact hfirst
  · intro hmem
    rcases List.mem_append.mp hmem with hm | hm
    · rcases List.mem_append.mp hm with hm2 | hm2
      · exact inferredTag_no_newline _ hm2
      · exact absurd hm2 (by decide)
    · exact hfirst hm

theorem bulletOf_nil : bulletOf [] = none := rfl

theorem pyStrip_dash_bullet {t : List Char} (ht : pyStrip t ≠ []) :
    pyStrip ("- ".data ++ pyStrip t) = "- ".data ++ pyStrip t := by
  cases hP : pyStrip t with
  | nil => exact absurd hP ht
  | cons d r =>
    apply pyStrip_eq_self_of_edges
    · intro c hc
      have hc1 : ('-' :: ' ' :: d :: r).head? = some c := hc
      have hcd : '-' = c := by simpa using hc1
      rw [← hcd]
      decide
    · intro c hc
      have hc2 : ('-' :: ' ' :: d :: r).getLast? = some c := hc
      rw [List.getLast?_cons_cons, List.getLast?_cons_cons] at hc2
      exact pyStrip_getLast_not_ws (l := t) (by rw [hP]; exact hc2)

theorem bulletOf_fix {l d : List Char} (h : bulletOf l = some d) :
    bulletOf d = some d := by
  unfold bulletOf at h
  by_cases h0 : pyStrip l = []
  · rw [if_pos h0] at h
    exact absurd h (by simp)
  · rw [if_neg h0] at h
    by_cases h1 :
        (!("-".data.isPrefixOf (pyStrip l)) && !("*".data.isPrefixOf (pyStrip l))) = true
    · rw [if_pos h1] at h
      have hd : "- ".data ++ pyStrip l = d := by simpa using h
      have hsd : pyStrip d = d := by
        rw [← hd]
        exact pyStrip_dash_bullet h0
      have hdash : "-".data.isPrefixOf d = true := by
        rw [← hd]
        exact isPrefixOf_append_self "-".data (' ' :: pyStrip l)
      unfold bulletOf
      rw [if_neg (by rw [hsd]; rw [← hd]; simp)]
      rw [if_neg (by rw [hsd, hdash]; simp)]
    · rw [if_neg h1] at h
      have hld : l = d := by simpa using h
      subst hld
      unfold bulletOf
      rw [if_neg h0, if_neg h1]

theorem bulletOf_some_props {l d : List Char} (h : bulletOf l = some d) :
    pyStrip d ≠ [] ∧ d ≠ [] := by
  have hf := bulletOf_fix h
  constructor
  · intro h0
    unfold bulletOf at hf
    rw [if_pos h0] at hf
    exact absurd hf (by simp)
  · intro h0
    subst h0
    rw [bulletOf_nil] at hf
    exact absurd hf (by simp)

theorem bulletOf_no_newline {l d : List Char} (hl : '\n' ∉ l)
    (h : bulletOf l = some d) : '\n' ∉ d := by
  unfold bulletOf at h
  by_cases h0 : pyStrip l = []
  · rw [if_pos h0] at h
    exact absurd h (by simp)
  · rw [if_neg h0] at h
    by_cases h1 :
        (!("-".data.isPrefixOf (pyStrip l)) && !("*".data.isPrefixOf (pyStrip l))) = true
    · rw [if_pos h1] at h
      have hd : "- ".data ++ pyStrip l = d := by simpa using h
      rw [← hd]
      intro hm
      rcases List.mem_append.mp hm with hm | hm
      · exact absurd hm (by decide)
      · exact hl (mem_pyStrip hm)
    · rw [if_neg h1] at h
      have hld : l = d := by simpa using h
      subst hld
      exact hl

theorem filterMap_id_of_fix {D : List (List Char)}
    (h : ∀ d ∈ D, bulletOf d = some d) : D.filterMap bulletOf = D := by
  induction D with
  | nil => rfl
  | cons d D' ih =>
    rw [List.filterMap_cons_some (h d (List.mem_cons_self _ _))]
    rw [ih (fun x hx => h x (List.mem_cons_of_mem _ hx))]

theorem formatLines_ne_nil (lines : List (List Char)) : formatLines lines ≠ [] := by
  simp only [formatLines]
  split
  · split <;> simp
  · simp

theorem formatLines_head (lines : List (List Char)) :
    (formatLines lines).headD [] = headlineOf lines := by
  simp only [formatLines]
  split
  · split <;> rfl
  · rfl

theorem formatLines_single {lines : List (List Char)} (h : ¬ 1 < lines.length) :
    formatLines lines = [headlineOf lines] := by
  simp only [formatLines]
  rw [if_neg h]

theorem formatLines_cons₂ (l0 l1 : List Char) (rest : List (List Char)) :
    formatLines (l0 :: l1 :: rest) =
      (if pyStrip l1 ≠ [] then [headlineOf (l0 :: l1 :: rest), []]
       else [headlineOf (l0 :: l1 :: rest)])
        ++ (l1 :: rest).filterMap bulletOf := by
  simp only [formatLines, List.length_cons, List.getD_cons_succ, List.getD_cons_zero,
    List.drop_succ_cons, List.drop_zero]
  rw [if_pos (by omega)]

theorem formatLines_no_newline {lines : List (List Char)}
    (h : ∀ l ∈ lines, '\n' ∉ l) : ∀ l ∈ formatLines lines, '\n' ∉ l := by
  intro l hl
  have hdetail : ∀ x, x ∈ (lines.drop 1).filterMap bulletOf → '\n' ∉ x := by
    intro x hx
    rcases List.mem_filterMap.mp hx with ⟨a, ham, ha⟩
    exact bulletOf_no_newline (h a (List.mem_of_mem_drop ham)) ha
  simp only [formatLines] at hl
  by_cases hlen : 1 < lines.length
  · rw [if_pos hlen] at hl
    rcases List.mem_append.mp hl with hm | hm
    · by_cases hsep : pyStrip (lines.getD 1 []) ≠ []
      · rw [if_pos hsep] at hm
        rcases List.mem_cons.mp hm with rfl | hm
        · exact headlineOf_no_newline h
        · rcases List.mem_cons.mp hm with rfl | hm
          · simp
          · simp at hm
      · rw [if_neg hsep] at hm
        rcases List.mem_cons.mp hm with rfl | hm
        · exact headlineOf_no_newline h
        · simp at hm
    · exact hdetail l hm
  · rw [if_neg hlen] at hl
    rcases List.mem_cons.mp hl with rfl | hm
    · exact headlineOf_no_newline h
    · simp at hm

theorem format_eq_joinNL (s : List Char) :
    format_commit_message s = joinNL (formatLines (splitNL (pyStrip s))) := by
  simp only [format_commit_message]
  rw [if_neg (splitNL_ne_nil _)]

theorem splitNL_format (s : List Char) :
    splitNL (format_commit_message s) = formatLines (splitNL (pyStrip s)) := by
  rw [format_eq_joinNL]
  exact splitNL_joinNL (formatLines_ne_nil _)
    (formatLines_no_newline (fun l hl => splitNL_no_newline hl))

theorem format_fix_single {hd : List Char}
    (hTag : tagList.any (fun p => p.isPrefixOf hd) = true)
    (hNL : '\n' ∉ hd) (hstrip : pyStrip hd = hd) :
    format_commit_message hd = hd := by
  rw [format_eq_joinNL, hstrip, splitNL_single hNL,
    formatLines_single (by simp), headlineOf_cons_tag hTag]
  rfl

theorem format_join_sep {hd : List Char} {D : List (List Char)}
    (hhd : tagList.any (fun p => p.isPrefixOf hd) = true)
    (hD : ∀ d ∈ D, bulletOf d = some d)
    (hn : ∀ l ∈ hd :: D, '\n' ∉ l)
    (hstrip : pyStrip (joinNL (hd :: [] :: D)) = joinNL (hd :: [] :: D)) :
    format_commit_message (joinNL (hd :: [] :: D)) = joinNL (hd :: D) := by
  have hn2 : ∀ l ∈ hd :: [] :: D, '\n' ∉ l := by
    intro l hl
    rcases List.mem_cons.mp hl with rfl | hl
    · exact hn _ (List.mem_cons_self _ _)
    · rcases List.mem_cons.mp hl with rfl | hl
      · simp
      · exact hn _ (List.mem_cons_of_mem _ hl)
  rw [format_eq_joinNL, hstrip, splitNL_joinNL (by simp) hn2]
  rw [formatLines_cons₂, if_neg (fun hcon => hcon rfl)]
  rw [headlineOf_cons_tag hhd, List.filterMap_cons_none bulletOf_nil, filterMap_id_of_fix hD]
  rfl

theorem format_join_nosep {hd : List Char} {D : List (List Char)}
    (hhd : tagList.any (fun p => p.isPrefixOf hd) = true)
    (hD : ∀ d ∈ D, bulletOf d = some d)
    (hn : ∀ l ∈ hd :: D, '\n' ∉ l)
    (hD0 : D ≠ [])
    (hstrip : pyStrip (joinNL (hd :: D)) = joinNL (hd :: D)) :
    format_commit_message (joinNL (hd :: D)) = joinNL (hd :: [] :: D) := by
  rw [format_eq_joinNL, hstrip, splitNL_joinNL (by simp) hn]
  cases D with
  | nil => exact absurd rfl hD0
  | cons d D' =>
    have hsd : pyStrip d ≠ [] := (bulletOf_some_props (hD d (List.mem_cons_self _ _))).1
    rw [formatLines_cons₂, if_pos hsd, headlineOf_cons_tag hhd, filterMap_id_of_fix hD]
    rfl

theorem bulletOf_some_shape {a l : List Char} (h : bulletOf a = some l) :
    pyStrip l ≠ [] ∧
      ("- ".data.isPrefixOf l = true ∨
       "-".data.isPrefixOf (pyStrip l) = true ∨
       "*".data.isPrefixOf (pyStrip l) = true) := by
  refine ⟨(bulletOf_some_props h).1, ?_⟩
  unfold bulletOf at h
  by_cases h0 : pyStrip a = []
  · rw [if_pos h0] at h
    exact absurd h (by simp)
  · rw [if_neg h0] at h
    by_cases h1 :
        (!("-".data.isPrefixOf (pyStrip a)) && !("*".data.isPrefixOf (pyStrip a))) = true
    · rw [if_pos h1] at h
      have hadl : "- ".data ++ pyStrip a = l := by simpa using h
      exact Or.inl (by rw [← hadl]; exact isPrefixOf_append_self _ _)
    · rw [if_neg h1] at h
      have hal : a = l := by simpa using h
      subst hal
      right
      by_cases hx : "-".data.isPrefixOf (pyStrip a) = true
      · exact Or.inl hx
      · refine Or.inr ?_
        cases hy : "*".data.isPrefixOf (pyStrip a) with
        | true => rfl
        | false =>
          exfalso
          apply h1
          have hx' : "-".data.isPrefixOf (pyStrip a) = false := by
            cases hB : "-".data.isPrefixOf (pyStrip a) with
            | false => rfl
            | true => exact absurd hB hx
          rw [hx', hy]
          rfl

/-- Claim C2 (code boundary): on an empty or whitespace-only input the code
returns the bare headline marker with an empty description, not the
localized auto-generated fallback message, because the Python split of an
empty string yields a one-element list and the fallback branch never runs. -/
theorem format_commit_message_empty_eval :
    format_commit_message "".data = "chore: ".data ∧
    format_commit_message "  \n ".data = "chore: ".data ∧
    "chore: ".data ≠ "chore: 自动生成的提交消息".data := by
  decide

/-- Claim C6: the four sample status lines are classified as the claim
states for both flag values, and every status line lands in at most one of
the three collections. -/
theorem get_file_changes_classification :
    (get_file_changes false
        ["?? a.txt".data, "M  b.txt".data, "D  c.txt".data, "A  d.txt".data] =
      { new_files := ["a.txt".data, "d.txt".data],
        modified_files := ["b.txt".data],
        deleted_files := ["c.txt".data] }) ∧
    (get_file_changes true
        ["?? a.txt".data, "M  b.txt".data, "D  c.txt".data, "A  d.txt".data]).new_files =
      ["d.txt".data] ∧
    ∀ (staged_only : Bool) (status : List (List Char)),
      (get_file_changes staged_only status).new_files.length +
        (get_file_changes staged_only status).modified_files.length +
        (get_file_changes staged_only status).deleted_files.length ≤ status.length := by
  refine ⟨by decide, by decide, ?_⟩
  intro staged_only status
  induction status with
  | nil => simp [get_file_changes]
  | cons line rest ih =>
    simp only [get_file_changes, List.length_cons]
    split
    · simp only [List.length_cons]
      omega
    · split
      · simp only [List.length_cons]
        omega
      · split
        · simp only [List.length_cons]
          omega
        · omega

/-- Claim C7, counterexample: the literal model string CLAUDE is routed to
provider B by the code, while the claim as stated predicts that no summary
is produced for it. -/
theorem dispatch_claude_literal_cex :
    summarize_changes_with_api "CLAUDE".data = some ApiProvider.claude_ai ∧
    claimed_dispatch "CLAUDE".data = none := by
  decide

/-- Claim C7 as amended: provider A for the default model string or a
gpt-led one; provider B for a claude-led one or the literal CLAUDE; no
summary (and no exception, the function being total) for anything else. -/
theorem dispatch_model_cases (m : List Char) :
    ((m = "OPEN_AI".data ∨ "gpt".data.isPrefixOf m = true) →
      summarize_changes_with_api m = some ApiProvider.open_ai) ∧
    (¬(m = "OPEN_AI".data ∨ "gpt".data.isPrefixOf m = true) →
      (m = "CLAUDE".data ∨ "claude".data.isPrefixOf m = true) →
      summarize_changes_with_api m = some ApiProvider.claude_ai) ∧
    (¬(m = "OPEN_AI".data ∨ "gpt".data.isPrefixOf m = true) →
      ¬(m = "CLAUDE".data ∨ "claude".data.isPrefixOf m = true) →
      summarize_changes_with_api m = none) := by
  refine ⟨fun h => ?_, fun h1 h2 => ?_, fun h1 h2 => ?_⟩
  · unfold summarize_changes_with_api
    rw [if_pos h]
  · unfold summarize_changes_with_api
    rw [if_neg h1, if_pos h2]
  · unfold summarize_changes_with_api
    rw [if_neg h1, if_neg h2]

/-- Witness for the amended claim C7 at a model string matching neither
provider. -/
theorem dispatch_model_cases_witness :
    summarize_changes_with_api "mistral-large".data = none :=
  (dispatch_model_cases "mistral-large".data).2.2 (by decide) (by decide)

/-- Claim C8, counterexample: the two diff-truncation bounds are the same
constant, refuting that one provider is strictly more generous. -/
theorem diff_limits_equal : open_ai_diff_limit = claude_ai_diff_limit := rfl

/-- Claim C8 as amended: each provider truncates the diff to a fixed
maximum of 20000 characters before embedding it, and the two bounds
coincide rather than being distinct. -/
theorem diff_truncation_same_limit (d : List Char) :
    (open_ai_prompt_diff d).length ≤ 20000 ∧
    open_ai_prompt_diff d = claude_ai_prompt_diff d := by
  constructor
  · simp only [open_ai_prompt_diff, open_ai_diff_limit, List.length_take]
    omega
  · rfl

/-- Claim C9: for every message and every outcome of the commit invocation
the transient file is gone after the call, the boolean of the returned pair
is true exactly on success, the text of the pair is the captured stdout on
success and the captured error text otherwise, and the concrete simulated
commit failure returns the failure pair with the file removed. -/
theorem commit_changes_cleanup_and_result (msg : List Char) (outcome : GitCommitOutcome) :
    (commit_changes msg outcome).temp_file_exists = false ∧
    (commit_changes msg outcome).ok =
      (match outcome with
        | GitCommitOutcome.success _ => true
        | _ => false) ∧
    (commit_changes msg outcome).output =
      (match outcome with
        | GitCommitOutcome.success out => out
        | GitCommitOutcome.called_process_error err => err
        | GitCommitOutcome.unexpected _ m => m) ∧
    commit_changes msg (GitCommitOutcome.called_process_error "fatal: empty commit".data) =
      { ok := false, output := "fatal: empty commit".data, temp_file_exists := false } := by
  cases outcome with
  | success out => exact ⟨rfl, rfl, rfl, rfl⟩
  | called_process_error err => exact ⟨rfl, rfl, rfl, rfl⟩
  | unexpected written m =>
    refine ⟨?_, rfl, rfl, rfl⟩
    cases written <;> rfl

/-- Claim C10: each request function passes the configured model through
when it carries the provider's own model-name lead, and silently replaces
it with the hard-coded model otherwise. -/
theorem request_model_substitution (m : List Char) :
    ("gpt".data.isPrefixOf m = false → open_ai_request_model m = "gpt-4o".data) ∧
    ("gpt".data.isPrefixOf m = true → open_ai_request_model m = m) ∧
    ("claude".data.isPrefixOf m = false →
      claude_ai_request_model m = "claude-3-7-sonnet-20250219".data) ∧
    ("claude".data.isPrefixOf m = true → claude_ai_request_model m = m) := by
  refine ⟨fun h => ?_, fun h => ?_, fun h => ?_, fun h => ?_⟩ <;>
    simp [open_ai_request_model, claude_ai_request_model, h]

/-- Witness for claim C10 at the two default identifiers named by the
claim. -/
theorem request_model_substitution_witness :
    open_ai_request_model "OPEN_AI".data = "gpt-4o".data ∧
    claude_ai_request_model "CLAUDE".data = "claude-3-7-sonnet-20250219".data :=
  ⟨(request_model_substitution "OPEN_AI".data).1 (by decide),
   (request_model_substitution "CLAUDE".data).2.2.1 (by decide)⟩

/-- Claim C1, counterexample: normalizing the two-line message once yields a
headline, a blank separator and a verbatim bullet; normalizing that output
again consumes the blank separator without re-inserting it, so the result
differs from the input. -/
theorem format_commit_message_not_idempotent :
    format_commit_message (format_commit_message "fix: x\n- a".data) ≠
      format_commit_message "fix: x\n- a".data := by
  decide

/-- Claim C1 as amended: the normalizer is not idempotent on its own
multi-line outputs, because a re-application toggles the blank separator
line after the headline (an existing blank second line is consumed and not
re-inserted); what does hold is that for every output carrying no leading
or trailing whitespace, two consecutive re-normalizations return to that
same output. -/
theorem format_commit_message_double_stable (s : List Char)
    (h : pyStrip (format_commit_message s) = format_commit_message s) :
    format_commit_message (format_commit_message (format_commit_message s)) =
      format_commit_message s := by
  have hNoNL : ∀ l ∈ splitNL (pyStrip s), '\n' ∉ l := fun l hl => splitNL_no_newline hl
  have hTag : tagList.any (fun p => p.isPrefixOf (headlineOf (splitNL (pyStrip s)))) = true :=
    headlineOf_hasTag _
  have hHdNL : '\n' ∉ headlineOf (splitNL (pyStrip s)) := headlineOf_no_newline hNoNL
  have hdne : headlineOf (splitNL (pyStrip s)) ≠ [] := by
    obtain ⟨c, t, hct, _⟩ := hasTag_head hTag
    rw [hct]
    simp
  by_cases hlen : 1 < (splitNL (pyStrip s)).length
  · obtain ⟨l0, l1, rest, hLL⟩ :
        ∃ l0 l1 rest, splitNL (pyStrip s) = l0 :: l1 :: rest := by
      cases hQ : splitNL (pyStrip s) with
      | nil =>
        rw [hQ] at hlen
        simp at hlen
      | cons a t =>
        cases t with
        | nil =>
          rw [hQ] at hlen
          simp at hlen
        | cons b u => exact ⟨a, b, u, rfl⟩
    have hGood : ∀ d ∈ (l1 :: rest).filterMap bulletOf, bulletOf d = some d := by
      intro d hdm
      rcases List.mem_filterMap.mp hdm with ⟨a, _, ha⟩
      exact bulletOf_fix ha
    have hDNL : ∀ d ∈ (l1 :: rest).filterMap bulletOf, '\n' ∉ d := by
      intro d hdm
      rcases List.mem_filterMap.mp hdm with ⟨a, ham, ha⟩
      exact bulletOf_no_newline (hNoNL a (by rw [hLL]; exact List.mem_cons_of_mem _ ham)) ha
    have hn1 : ∀ l ∈ headlineOf (splitNL (pyStrip s)) :: (l1 :: rest).filterMap bulletOf,
        '\n' ∉ l := by
      intro l hl
      rcases List.mem_cons.mp hl with rfl | hl
      · exact hHdNL
      · exact hDNL l hl
    by_cases hsep : pyStrip l1 ≠ []
    · have hF : formatLines (splitNL (pyStrip s)) =
          headlineOf (splitNL (pyStrip s)) :: [] :: (l1 :: rest).filterMap bulletOf := by
        conv_lhs => rw [hLL]
        rw [formatLines_cons₂, if_pos hsep, ← hLL]
        rfl
      have hD0 : (l1 :: rest).filterMap bulletOf ≠ [] := by
        have hb : ∃ b, bulletOf l1 = some b := by
          unfold bulletOf
          rw [if_neg hsep]
          split
          · exact ⟨_, rfl⟩
          · exact ⟨_, rfl⟩
        obtain ⟨b, hb⟩ := hb
        rw [List.filterMap_cons_some hb]
        simp
      have ho : format_commit_message s =
          joinNL (headlineOf (splitNL (pyStrip s)) :: [] ::
            (l1 :: rest).filterMap bulletOf) := by
        rw [format_eq_joinNL, hF]
      have hstrip1 : pyStrip (joinNL (headlineOf (splitNL (pyStrip s)) :: [] ::
          (l1 :: rest).filterMap bulletOf)) =
          joinNL (headlineOf (splitNL (pyStrip s)) :: [] ::
            (l1 :: rest).filterMap bulletOf) := by
        rw [← ho]
        exact h
      have h1 := format_join_sep hTag hGood hn1 hstrip1
      have hedge := edges_not_ws_of_pyStrip_eq hstrip1
      obtain ⟨d0, D', hDD⟩ :
          ∃ d0 D', (l1 :: rest).filterMap bulletOf = d0 :: D' := by
        cases hQ : (l1 :: rest).filterMap bulletOf with
        | nil => exact absurd hQ hD0
        | cons x y => exact ⟨x, y, rfl⟩
      have hd0ne : d0 ≠ [] :=
        (bulletOf_some_props (hGood d0 (by rw [hDD]; exact List.mem_cons_self _ _))).2
      have hjD : joinNL ((l1 :: rest).filterMap bulletOf) ≠ [] := by
        rw [hDD]
        exact joinNL_cons_ne_nil hd0ne
      have hjDD : joinNL ([] :: (l1 :: rest).filterMap bulletOf) ≠ [] := by
        rw [hDD]
        simp [joinNL]
      have hstrip2 : pyStrip (joinNL (headlineOf (splitNL (pyStrip s)) ::
          (l1 :: rest).filterMap bulletOf)) =
          joinNL (headlineOf (splitNL (pyStrip s)) :: (l1 :: rest).filterMap bulletOf) := by
        apply pyStrip_eq_self_of_edges
        · intro c hc
          rw [joinNL_cons_head? hdne] at hc
          exact hedge.1 c (by rw [joinNL_cons_head? hdne]; exact hc)
        · intro c hc
          rw [joinNL_cons_getLast? hjD] at hc
          exact hedge.2 c
            (by rw [joinNL_cons_getLast? hjDD, joinNL_cons_getLast? hjD]; exact hc)
      have h2 := format_join_nosep hTag hGood hn1 hD0 hstrip2
      rw [ho, h1, h2]
    · have hsep' : pyStrip l1 = [] := not_not.mp hsep
      have hF : formatLines (splitNL (pyStrip s)) =
          headlineOf (splitNL (pyStrip s)) :: (l1 :: rest).filterMap bulletOf := by
        conv_lhs => rw [hLL]
        rw [formatLines_cons₂, if_neg hsep, ← hLL]
        rfl
      by_cases hD0 : (l1 :: rest).filterMap bulletOf = []
      · have ho : format_commit_message s = headlineOf (splitNL (pyStrip s)) := by
          rw [format_eq_joinNL, hF, hD0]
          rfl
        have hfo := format_fix_single hTag hHdNL (by rw [← ho]; exact h)
        rw [ho, hfo, hfo]
      · have ho : format_commit_message s =
            joinNL (headlineOf (splitNL (pyStrip s)) :: (l1 :: rest).filterMap bulletOf) := by
          rw [format_eq_joinNL, hF]
        have hstrip1 : pyStrip (joinNL (headlineOf (splitNL (pyStrip s)) ::
            (l1 :: rest).filterMap bulletOf)) =
            joinNL (headlineOf (splitNL (pyStrip s)) :: (l1 :: rest).filterMap bulletOf) := by
          rw [← ho]
          exact h
        have h1 := format_join_nosep hTag hGood hn1 hD0 hstrip1
        have hedge := edges_not_ws_of_pyStrip_eq hstrip1
        obtain ⟨d0, D', hDD⟩ :
            ∃ d0 D', (l1 :: rest).filterMap bulletOf = d0 :: D' := by
          cases hQ : (l1 :: rest).filterMap bulletOf with
          | nil => exact absurd hQ hD0
          | cons x y => exact ⟨x, y, rfl⟩
        have hd0ne : d0 ≠ [] :=
          (bulletOf_some_props (hGood d0 (by rw [hDD]; exact List.mem_cons_self _ _))).2
        have hjD : joinNL ((l1 :: rest).filterMap bulletOf) ≠ [] := by
          rw [hDD]
          exact joinNL_cons_ne_nil hd0ne
        have hjDD : joinNL ([] :: (l1 :: rest).filterMap bulletOf) ≠ [] := by
          rw [hDD]
          simp [joinNL]
        have hstrip2 : pyStrip (joinNL (headlineOf (splitNL (pyStrip s)) :: [] ::
            (l1 :: rest).filterMap bulletOf)) =
            joinNL (headlineOf (splitNL (pyStrip s)) :: [] ::
              (l1 :: rest).filterMap bulletOf) := by
          apply pyStrip_eq_self_of_edges
          · intro c hc
            rw [joinNL_cons_head? hdne] at hc
            exact hedge.1 c (by rw [joinNL_cons_head? hdne]; exact hc)
          · intro c hc
            rw [joinNL_cons_getLast? hjDD, joinNL_cons_getLast? hjD] at hc
            exact hedge.2 c (by rw [joinNL_cons_getLast? hjD]; exact hc)
        have h2 := format_join_sep hTag hGood hn1 hstrip2
        rw [ho, h1, h2]
  · have hF : formatLines (splitNL (pyStrip s)) = [headlineOf (splitNL (pyStrip s))] :=
      formatLines_single hlen
    have ho : format_commit_message s = headlineOf (splitNL (pyStrip s)) := by
      rw [format_eq_joinNL, hF]
      rfl
    have hfo := format_fix_single hTag hHdNL (by rw [← ho]; exact h)
    rw [ho, hfo, hfo]

/-- Witness for the amended claim C1 at a concrete normalized message with
no edge whitespace. -/
theorem format_commit_message_double_stable_witness :
    pyStrip (format_commit_message "fix: x\n- a".data) =
      format_commit_message "fix: x\n- a".data ∧
    format_commit_message (format_commit_message (format_commit_message "fix: x\n- a".data)) =
      format_commit_message "fix: x\n- a".data :=
  ⟨by decide, format_commit_message_double_stable "fix: x\n- a".data (by decide)⟩

/-- Claim C3, counterexample: on this two-line input the single detail line
of the output is the verbatim asterisk bullet, which does not start with
the two characters dash space. -/
theorem detail_not_all_dash_space :
    splitNL (format_commit_message "fix: x\n* foo".data) =
      ["fix: x".data, [], "* foo".data] ∧
    "- ".data.isPrefixOf "* foo".data = false := by
  decide

/-- Claim C3 as amended: for a multi-line input, every line of the
normalized output after the headline is either the single blank separator
or a detail line, and every detail line is non-blank and either carries the
generated dash-space lead or is kept verbatim because its stripped form
already starts with a dash or an asterisk. -/
theorem detail_lines_bulleted (s : List Char)
    (h : 1 < (splitNL (pyStrip s)).length) :
    ∀ l ∈ (splitNL (format_commit_message s)).drop 1,
      l = [] ∨
        (pyStrip l ≠ [] ∧
          ("- ".data.isPrefixOf l = true ∨
           "-".data.isPrefixOf (pyStrip l) = true ∨
           "*".data.isPrefixOf (pyStrip l) = true)) := by
  intro l hl
  rw [splitNL_format] at hl
  obtain ⟨l0, l1, rest, hLL⟩ : ∃ l0 l1 rest, splitNL (pyStrip s) = l0 :: l1 :: rest := by
    cases hQ : splitNL (pyStrip s) with
    | nil =>
      rw [hQ] at h
      simp at h
    | cons a t =>
      cases t with
      | nil =>
        rw [hQ] at h
        simp at h
      | cons b u => exact ⟨a, b, u, rfl⟩
  rw [hLL, formatLines_cons₂] at hl
  by_cases hsep : pyStrip l1 ≠ []
  · rw [if_pos hsep] at hl
    have hl' : l ∈ [] :: (l1 :: rest).filterMap bulletOf := hl
    rcases List.mem_cons.mp hl' with rfl | hl2
    · exact Or.inl rfl
    · rcases List.mem_filterMap.mp hl2 with ⟨a, _, ha⟩
      exact Or.inr (bulletOf_some_shape ha)
  · rw [if_neg hsep] at hl
    have hl' : l ∈ (l1 :: rest).filterMap bulletOf := hl
    rcases List.mem_filterMap.mp hl' with ⟨a, _, ha⟩
    exact Or.inr (bulletOf_some_shape ha)

/-- Witness for the amended claim C3 at a concrete two-line input. -/
theorem detail_lines_bulleted_witness :
    1 < (splitNL (pyStrip "fix: x\n* foo".data)).length ∧
    ∀ l ∈ (splitNL (format_commit_message "fix: x\n* foo".data)).drop 1,
      l = [] ∨
        (pyStrip l ≠ [] ∧
          ("- ".data.isPrefixOf l = true ∨
           "-".data.isPrefixOf (pyStrip l) = true ∨
           "*".data.isPrefixOf (pyStrip l) = true)) :=
  ⟨by decide, detail_lines_bulleted "fix: x\n* foo".data (by decide)⟩

/-- Claim C4: when line 0 carries no recognized tag marker, the output
headline is the inferred tag (scanning all lines in the fixed order fix,
feat, docs, refactor, chore) joined to the original line 0; and the
specified three-line example yields the fix headline with the two dash
bullets after the blank separator. -/
theorem inferred_headline_rule (s : List Char) :
    (tagList.any (fun p => p.isPrefixOf ((splitNL (pyStrip s)).headD [])) = false →
      (splitNL (format_commit_message s)).headD [] =
        inferredTag (splitNL (pyStrip s)) ++ ": ".data ++ (splitNL (pyStrip s)).headD []) ∧
    format_commit_message "Fix bug\nAdded null check\nUpdated docs".data =
      "fix: Fix bug\n\n- Added null check\n- Updated docs".data := by
  constructor
  · intro hfalse
    rw [splitNL_format, formatLines_head]
    simp only [headlineOf]
    rw [if_neg (by rw [hfalse]; simp)]
  · decide

/-- Witness for claim C4 at an input whose first line has no recognized
tag. -/
theorem inferred_headline_rule_witness :
    (splitNL (format_commit_message "Improve startup speed".data)).headD [] =
      inferredTag (splitNL (pyStrip "Improve startup speed".data)) ++ ": ".data ++
        (splitNL (pyStrip "Improve startup speed".data)).headD [] :=
  (inferred_headline_rule "Improve startup speed".data).1 (by decide)

/-- Claim C5: when line 0 already starts with a recognized tag marker the
output headline is that line unchanged. -/
theorem recognized_headline_kept (s : List Char)
    (h : tagList.any (fun p => p.isPrefixOf ((splitNL (pyStrip s)).headD [])) = true) :
    (splitNL (format_commit_message s)).headD [] = (splitNL (pyStrip s)).headD [] := by
  rw [splitNL_format, formatLines_head]
  simp only [headlineOf]
  rw [if_pos h]

/-- Witness for claim C5 at an input that already carries a tag. -/
theorem recognized_headline_kept_witness :
    (splitNL (format_commit_message "fix: tidy\ndetails".data)).headD [] =
      (splitNL (pyStrip "fix: tidy\ndetails".data)).headD [] :=
  recognized_headline_kept "fix: tidy\ndetails".data (by decide)
